import Mathlib

/-!
Verification of the MTG-game-engine draw-probability system.

The development shallowly embeds the React deck-state layer
(frontend DeckContext: deck payload construction, category derivation,
full-state synthetic results, zone moves) and, where the simulation core
is only visible through its interface, models the core from its
specification (draw primitive, tutor resolution, full-state
short-circuit, seeded trial partitioning).  JS numbers standing for
probabilities are embedded as rationals, counts as integers or naturals,
and JS strings as Lean strings manipulated through their character
lists.
-/

/-- Lowercase a single character the way JS String.prototype.toLowerCase
acts on ASCII letters (the only letters appearing in category keywords). -/
def jsLowerChar (c : Char) : Char :=
  if 'A' ≤ c ∧ c ≤ 'Z' then Char.ofNat (c.toNat + 32) else c

/-- Embedding of JS s.toLowerCase(). -/
def jsToLower (s : String) : String := String.mk (s.data.map jsLowerChar)

/-- Boolean list-prefix test, the building block of substring search. -/
def isPrefixB : List Char → List Char → Bool
  | [], _ => true
  | _ :: _, [] => false
  | a :: as, b :: bs => a = b && isPrefixB as bs

/-- Substring occurrence over character lists: does sub occur inside l. -/
def jsIncludesL (l sub : List Char) : Bool :=
  match l with
  | [] => isPrefixB sub []
  | c :: t => isPrefixB sub (c :: t) || jsIncludesL t sub

/-- Embedding of JS s.includes(sub). -/
def jsIncludes (s sub : String) : Bool := jsIncludesL s.data sub.data

/-- Embedding of JS Math.round on a non-negative rational: round half up. -/
def jsRound (q : ℚ) : ℤ := ⌊q + 1/2⌋

/-! ## JS Map model

A JS Map iterated with Array.from(map.entries()) yields entries in
insertion order, with map.set updating an existing key in place.  We
model it as an association list whose set-operation rewrites the first
matching key and otherwise appends. -/

/-- JS map.set(k, v): update the entry for k in place, else append. -/
def mapSet (m : List (String × Int)) (k : String) (v : Int) : List (String × Int) :=
  match m with
  | [] => [(k, v)]
  | (k₁, v₁) :: rest => if k₁ = k then (k, v) :: rest else (k₁, v₁) :: mapSet rest k v

/-- JS map.get(k): first value stored under k, if any. -/
def mapGet (m : List (String × Int)) (k : String) : Option Int :=
  match m with
  | [] => none
  | (k₁, v₁) :: rest => if k₁ = k then some v₁ else mapGet rest k

/-! ## Deck payload construction (DeckContext.deckPayload / fullStateDeckPayload) -/

/-- A decklist card as the payload builders see it: a name and an
optional count (JS c.count may be undefined). -/
structure DeckCard where
  name : String
  count : Option Int
deriving DecidableEq, Repr

/-- A card sitting in a zone (top / bottom) as the payload builder sees
it: only its name matters. -/
structure ZoneCard where
  name : String
deriving DecidableEq, Repr

/-- One step of deckPayload's loop: count = c.count ?? 1; skip when
count <= 0; otherwise map.set(name, (map.get(name) || 0) + count). -/
def deckPayloadStep (m : List (String × Int)) (c : DeckCard) : List (String × Int) :=
  let count := c.count.getD 1
  if count ≤ 0 then m else mapSet m c.name ((mapGet m c.name).getD 0 + count)

/-- Embedding of DeckContext.deckPayload: fold the decklist through the
JS Map and read the entries back in insertion order. -/
def deckPayload (list : List DeckCard) : List (String × Int) :=
  list.foldl deckPayloadStep []

/-- The add helper inside fullStateDeckPayload: skip falsy names and
non-positive increments, else accumulate into the map. -/
def fsAdd (m : List (String × Int)) (name : String) (n : Int) : List (String × Int) :=
  if name = "" ∨ n ≤ 0 then m else mapSet m name ((mapGet m name).getD 0 + n)

/-- One decklist step of fullStateDeckPayload: count = c.count ?? 0 and
only positive counts are forwarded to add. -/
def fsDeckStep (m : List (String × Int)) (c : DeckCard) : List (String × Int) :=
  let count := c.count.getD 0
  if count > 0 then fsAdd m c.name count else m

/-- Embedding of DeckContext.fullStateDeckPayload: decklist counts plus
one per card in the top and bottom zones. -/
def fullStateDeckPayload (decklist : List DeckCard) (top bottom : List ZoneCard) :
    List (String × Int) :=
  (top ++ bottom).foldl (fun m c => fsAdd m c.name 1) (decklist.foldl fsDeckStep [])

/-! ## Category derivation (DeckContext.runSimForState's pickCategory) -/

/-- Embedding of the frontend pickCategory helper: lowercase the
type line (an absent type_line behaves as the empty string) and test the
eight categories in the fixed source order, first match winning. -/
def pickCategory (typeLine : Option String) : String :=
  let tl := jsToLower (typeLine.getD "")
  if jsIncludes tl "land" then "land"
  else if jsIncludes tl "creature" then "creature"
  else if jsIncludes tl "artifact" then "artifact"
  else if jsIncludes tl "instant" then "instant"
  else if jsIncludes tl "sorcery" then "sorcery"
  else if jsIncludes tl "enchantment" then "enchantment"
  else if jsIncludes tl "planeswalker" then "planeswalker"
  else "other"

/-- The keyword order the spec describes for category derivation. -/
def categoryKeywords : List String :=
  ["land", "creature", "artifact", "instant", "sorcery", "enchantment", "planeswalker"]

/-- Spec reading of the category derivation, for the refinement check:
the first keyword, in the fixed order, occurring in the lowercased type
line; other when none occurs. -/
def specPickCategory (typeLine : Option String) : String :=
  (categoryKeywords.find? (fun k => jsIncludes (jsToLower (typeLine.getD "")) k)).getD "other"

/-! ## Full-state synthetic results (DeckContext.runSimForState / runSimForCard) -/

/-- One entry of the full-state endpoint response: a card name and its
per-card probability p_now. -/
structure FSEntry where
  name : String
  p_now : ℚ
deriving DecidableEq

/-- The full-state endpoint response fields the frontend consumes. -/
structure FSResponse where
  results : List FSEntry
  num_simulations : ℕ
deriving DecidableEq

/-- Card metadata as the frontend category matcher sees it. -/
structure CardMeta where
  name : String
  type_line : Option String
deriving DecidableEq

/-- The numeric fields of the synthetic result object both frontend
simulation wrappers build in full-state mode. -/
structure SynthResult where
  probability : ℚ
  theoretical_probability : ℚ
  absolute_error : ℚ
  simulations_run : ℕ
  hits : ℤ
  category : String
deriving DecidableEq

/-- The probNow accumulation loop of runSimForState: sum p_now over
response entries whose derived category (from the matching card's
type_line, via pickCategory) equals the lowercased requested category. -/
def probNowOf (allCards : List CardMeta) (categoryLower : String) (results : List FSEntry) : ℚ :=
  results.foldl
    (fun acc e =>
      if pickCategory ((allCards.find? (fun c => c.name = e.name)).bind (fun c => c.type_line))
          = categoryLower
      then acc + e.p_now else acc)
    0

/-- Embedding of the synthetic result runSimForState returns in
full-state mode: probability is the category sum probNow, hits is
Math.round(probNow * simulations). -/
def runSimForStateSynth (allCards : List CardMeta) (category : String) (res : FSResponse) :
    SynthResult :=
  let categoryLower := jsToLower category
  let probNow := probNowOf allCards categoryLower res.results
  let simulations := res.num_simulations
  { probability := probNow
    theoretical_probability := probNow
    absolute_error := 0
    simulations_run := simulations
    hits := jsRound (probNow * simulations)
    category := category }

/-- Embedding of the synthetic result runSimForCard returns in
full-state mode: p_now of the entry whose lowercased name matches the
target (0 when absent), hits again via Math.round. -/
def runSimForCardSynth (cardName : String) (res : FSResponse) : SynthResult :=
  let targetName := jsToLower cardName
  let pNow :=
    ((res.results.find? (fun r => jsToLower r.name = targetName)).map (fun r => r.p_now)).getD 0
  let simulations := res.num_simulations
  { probability := pNow
    theoretical_probability := pNow
    absolute_error := 0
    simulations_run := simulations
    hits := jsRound (pNow * simulations)
    category := "specific_cards" }

/-! ## Game State Model (backend core)

The backend simulation engine itself (backend/app/simulation.py) is not
among the provided sources; the definitions below are modelled from the
specification of the Game State Model, Effect Resolver, full-state
short-circuit and seed partitioning, and the claims about them are
settled against these models. -/

/-- Errors a single trial can surface; per the spec an attempted draw
with no cards left anywhere is fatal to the trial. -/
inductive DrawError where
  | emptyLibraryDraw
deriving DecidableEq

/-- Modelled from the spec: the per-trial game state of the missing
backend core — an ordered known-top, the unknown portion as per-name
remaining counts, an ordered known-bottom, and the hand and battlefield
the draws and tutors feed. -/
structure SimState where
  knownTop : List String
  unknown : List (String × ℕ)
  knownBottom : List String
  hand : List String
  battlefield : List String
deriving DecidableEq

/-- Total number of cards remaining in the unknown portion. -/
def totalUnknown (u : List (String × ℕ)) : ℕ := (u.map (fun e => e.2)).sum

/-- Walk the per-name enumeration of the unknown portion: the r-th card
(0-based, r below the total) is the name whose cumulative count first
exceeds r; that name's count is decremented in the returned portion. -/
def pickUnknown : List (String × ℕ) → ℕ → String × List (String × ℕ)
  | [], _ => ("", [])
  | (n, c) :: rest, r =>
      if r < c then (n, (n, c - 1) :: rest)
      else
        let p := pickUnknown rest (r - c)
        (p.1, (n, c) :: p.2)

/-- Modelled from the spec: the backend draw primitive draw_one of the
missing core — front of known-top when non-empty, else a weighted
uniform sample from the unknown portion (r is the trial's random index),
else the front of known-bottom; the drawn card moves to hand, and a draw
from a fully empty library is an error, never a silent zero. -/
def draw_one (s : SimState) (r : ℕ) : Except DrawError SimState :=
  match s.knownTop with
  | n :: rest => .ok { s with knownTop := rest, hand := n :: s.hand }
  | [] =>
      if 0 < totalUnknown s.unknown then
        let p := pickUnknown s.unknown (r % totalUnknown s.unknown)
        .ok { s with unknown := p.2, hand := p.1 :: s.hand }
      else
        match s.knownBottom with
        | n :: rest => .ok { s with knownBottom := rest, hand := n :: s.hand }
        | [] => .error .emptyLibraryDraw

/-- Where a tutor effect puts the card it finds. -/
inductive TutorDest where
  | toHand
  | toBattlefield
deriving DecidableEq

/-- Remove one card matching the predicate from the unknown portion,
first match in per-name enumeration order; none when no name with a
positive remaining count matches. -/
def removeFirstMatch (pred : String → Bool) :
    List (String × ℕ) → Option (String × List (String × ℕ))
  | [] => none
  | (n, c) :: rest =>
      if pred n ∧ 0 < c then some (n, (n, c - 1) :: rest)
      else
        match removeFirstMatch pred rest with
        | none => none
        | some p => some (p.1, (n, c) :: p.2)

/-- Modelled from the spec: the Effect Resolver's TutorByPredicate of
the missing core — move the first matching card of the unknown portion
to the requested zone, and fizzle as a silent no-op when nothing
matches. -/
def tutorByPredicate (pred : String → Bool) (dest : TutorDest) (s : SimState) : SimState :=
  match removeFirstMatch pred s.unknown with
  | none => s
  | some (n, u) =>
      match dest with
      | .toHand => { s with unknown := u, hand := n :: s.hand }
      | .toBattlefield => { s with unknown := u, battlefield := n :: s.battlefield }

/-- The chance that the next single draw from a state with an empty
known-top hits a category: matching weight over total weight of the
unknown portion.  Serves as the no-effect baseline statistic. -/
def categoryWeight (pred : String → Bool) (u : List (String × ℕ)) : ℕ :=
  ((u.filter (fun e => pred e.1)).map (fun e => e.2)).sum

/-! ## Full-state short-circuit (backend simulate-full-state) -/

/-- One per-name entry of the modelled full-state response: the name,
its p_now, and how many trials were consumed for that name. -/
structure FSOut where
  name : String
  p_now : ℚ
  trials_used : ℕ
deriving DecidableEq

/-- Modelled from the spec: the full-state engine's per-name result of
the missing core — a name present in known-top is deterministic, 1 when
it lies within the reveal horizon and 0 otherwise, with zero trials
consumed; any other name gets a Monte Carlo estimate from the full
trial budget. -/
def fsEntryFor (knownTop : List String) (horizon trials : ℕ) (mc : String → ℚ)
    (name : String) : FSOut :=
  if name ∈ knownTop then
    { name := name, p_now := if name ∈ knownTop.take horizon then 1 else 0, trials_used := 0 }
  else
    { name := name, p_now := mc name, trials_used := trials }

/-- Modelled from the spec: the simulate-full-state result list of the
missing core, one entry per distinct name of the remaining library. -/
def fullStateSim (deck : List (String × ℕ)) (knownTop : List String)
    (horizon trials : ℕ) (mc : String → ℚ) : List FSOut :=
  ((deck.map (fun e => e.1) ++ knownTop).dedup).map (fsEntryFor knownTop horizon trials mc)

/-! ## Simulation Engine (backend trial loop and seed partitioning) -/

/-- Modelled from the spec: the fixed, documented per-trial sub-seed
derivation of the missing core — top-level seed XOR trial index, pushed
through a fixed multiplicative hash. -/
def subSeed (seed i : ℕ) : ℕ := ((seed ^^^ i) * 2654435761 + 104729) % 4294967296

/-- A fixed linear congruential step supplying the in-trial random
indices, advanced deterministically from the trial's sub-seed. -/
def lcgStep (s : ℕ) : ℕ := (s * 1103515245 + 12345) % 2147483648

/-- A simulation request as the engine model consumes it: the unknown
deck composition, the ordered known zones, the target predicate and the
number of cards drawn per trial. -/
structure SimRequest where
  deck : List (String × ℕ)
  knownTop : List String
  knownBottom : List String
  target : String → Bool
  draws : ℕ

/-- Run the draw phase of one trial: d draws with draw_one, the random
stream advancing by lcgStep, an error draw aborting the trial. -/
def runDraws : ℕ → SimState → ℕ → Except DrawError SimState
  | 0, s, _ => .ok s
  | d + 1, s, rng =>
      match draw_one s rng with
      | .error e => .error e
      | .ok s₁ => runDraws d s₁ (lcgStep rng)

/-- Modelled from the spec: one independent trial of the missing core —
build the state from the request, run the draw phase with the trial's
sub-seed, and record whether any drawn card satisfies the target; an
EmptyLibraryDraw during the draw phase is fatal to the trial and is the
trial's result, never an outcome. -/
def runTrial (req : SimRequest) (trialSeed : ℕ) : Except DrawError Bool :=
  let s0 : SimState :=
    { knownTop := req.knownTop, unknown := req.deck, knownBottom := req.knownBottom
      hand := [], battlefield := [] }
  match runDraws req.draws s0 trialSeed with
  | .error e => .error e
  | .ok s => .ok (s.hand.any req.target)

/-- The outcome stream of the trial index range [offset, offset + len),
each trial keyed by its deterministically derived sub-seed. -/
def trialOutcomes (req : SimRequest) (seed offset len : ℕ) : List (Except DrawError Bool) :=
  (List.range len).map (fun k => runTrial req (subSeed seed (offset + k)))

/-- Aggregate a stream of trial outcomes: the hit count when every
trial completed, else the first trial error, surfaced to the caller as
a configuration error rather than folded into the statistics. -/
def collectHits : List (Except DrawError Bool) → Except DrawError ℕ
  | [] => .ok 0
  | .error e :: _ => .error e
  | .ok b :: rest =>
      match collectHits rest with
      | .error e => .error e
      | .ok k => .ok ((if b then 1 else 0) + k)

/-- Merge two workers' partial aggregates: partial hit counts add, and
an error on either side surfaces. -/
def mergeE : Except DrawError ℕ → Except DrawError ℕ → Except DrawError ℕ
  | .error e, _ => .error e
  | .ok _, .error e => .error e
  | .ok x, .ok y => .ok (x + y)

/-- Aggregate over the trial index range [offset, offset + len). -/
def hitsFrom (req : SimRequest) (seed offset len : ℕ) : Except DrawError ℕ :=
  collectHits (trialOutcomes req seed offset len)

/-- Sequential aggregate: the hit count of trials 0 .. n-1, or the
first trial error. -/
def seqHits (req : SimRequest) (seed n : ℕ) : Except DrawError ℕ := hitsFrom req seed 0 n

/-- Parallel aggregate: the trial index range is split into consecutive
worker chunks of the given sizes, each worker aggregates its own chunk,
and the per-worker partial results are merged. -/
def parHits (req : SimRequest) (seed : ℕ) : ℕ → List ℕ → Except DrawError ℕ
  | _, [] => .ok 0
  | offset, c :: cs => mergeE (hitsFrom req seed offset c) (parHits req seed (offset + c) cs)

/-! ## Frontend zone state (DeckContext.moveCard / clearZone) -/

/-- The five instance-holding zones of the frontend zoneMap. -/
inductive NZ where
  | hand
  | battlefield
  | graveyard
  | top
  | bottom
deriving DecidableEq

/-- The fixed enumeration of the instance-holding zones. -/
def nzAll : List NZ := [.hand, .battlefield, .graveyard, .top, .bottom]

/-- A moveCard / clearZone source or destination: the decklist or one of
the instance-holding zones. -/
inductive Zone where
  | decklist
  | nz (z : NZ)
deriving DecidableEq

/-- A decklist row: a card id and its remaining count. -/
structure DLCard where
  id : String
  count : Int
deriving DecidableEq

/-- A card instance living in a zone: the card id it came from and the
fresh instance id minted when it left the decklist. -/
structure Inst where
  id : String
  instanceId : String
deriving DecidableEq

/-- The zone-relevant part of the DeckContext state: the decklist rows,
the five instance zones, and the selected-effect instance ids. -/
structure UIState where
  decklist : List DLCard
  zones : NZ → List Inst
  effectIds : List String

/-- Pointwise update of one zone's list. -/
def setZone (zs : NZ → List Inst) (z : NZ) (l : List Inst) : NZ → List Inst :=
  fun w => if w = z then l else zs w

/-- The removeOne helper of moveCard: drop the first instance whose
instanceId or id matches, returning the shrunk list and the item. -/
def removeOne (arr : List Inst) (m : String) : List Inst × Option Inst :=
  match arr with
  | [] => ([], none)
  | c :: rest =>
      if c.instanceId = m ∨ c.id = m then (rest, some c)
      else
        let p := removeOne rest m
        (c :: p.1, p.2)

/-- The decklist branch of moveCard: find the first row with the given
id; when its count is positive, decrement it and hand back the source
row, otherwise the whole move is a no-op. -/
def removeFromDecklist : List DLCard → String → Option (List DLCard × DLCard)
  | [], _ => none
  | c :: rest, cid =>
      if c.id = cid then
        if 0 < c.count then some ({ c with count := c.count - 1 } :: rest, c) else none
      else (removeFromDecklist rest cid).map (fun p => (c :: p.1, p.2))

/-- Increment the count of the first decklist row with the given id. -/
def incFirst : List DLCard → String → Option (List DLCard)
  | [], _ => none
  | c :: rest, cid =>
      if c.id = cid then some ({ c with count := c.count + 1 } :: rest)
      else (incFirst rest cid).map (fun l => c :: l)

/-- The toZone = decklist branch of moveCard: increment the matching
row, else append a fresh row with count 1. -/
def addToDecklist (dl : List DLCard) (cid : String) : List DLCard :=
  match incFirst dl cid with
  | some dl₁ => dl₁
  | none => dl ++ [⟨cid, 1⟩]

/-- Increment the count of the last decklist row with the given id
(clearZone resolves ids through a Map built with last-wins indices). -/
def incLast : List DLCard → String → Option (List DLCard)
  | [], _ => none
  | c :: rest, cid =>
      match incLast rest cid with
      | some rest₁ => some (c :: rest₁)
      | none =>
          if c.id = cid then some ({ c with count := c.count + 1 } :: rest) else none

/-- One returned card of clearZone: increment the last matching row,
else append a fresh row with count 1. -/
def addBackToDecklist (dl : List DLCard) (cid : String) : List DLCard :=
  match incLast dl cid with
  | some dl₁ => dl₁
  | none => dl ++ [⟨cid, 1⟩]

/-- The destination half of moveCard: into the decklist as a count, or
appended to the destination zone's instance list. -/
def finishMove (s : UIState) (dl : List DLCard) (moved : Inst) (toZone : Zone) : UIState :=
  match toZone with
  | .decklist => { s with decklist := addToDecklist dl moved.id }
  | .nz z => { s with decklist := dl, zones := setZone s.zones z (s.zones z ++ [moved]) }

/-- The zone-source branch of DeckContext.moveCard: remove the first
matching instance from the source zone, forget its selected-effect
flag, then add it to the destination. -/
def moveFromZone (s : UIState) (cardId : String) (z : NZ) (toZone : Zone) : UIState :=
  match (removeOne (s.zones z) cardId).2 with
  | none => s
  | some item =>
      let s₁ : UIState :=
        { s with zones := setZone s.zones z ((removeOne (s.zones z) cardId).1)
                 effectIds := s.effectIds.filter (fun e => e ≠ item.instanceId) }
      finishMove s₁ s₁.decklist item toZone

/-- Embedding of DeckContext.moveCard (continued): dispatch on the
source zone; the decklist branch decrements and mints, the zone branch
removes and re-homes. -/
def moveCard (s : UIState) (cardId : String) (fromZone toZone : Zone) (newId : String) :
    UIState :=
  if fromZone = toZone then s
  else
    match fromZone with
    | .decklist =>
        match removeFromDecklist s.decklist cardId with
        | none => s
        | some p => finishMove s p.1 ⟨p.2.id, newId⟩ toZone
    | .nz z => moveFromZone s cardId z toZone

/-- Embedding of DeckContext.clearZone: every instance of the zone goes
back into the decklist as a count increment (or a fresh row), the zone
is emptied, and the zone's selected-effect flags are dropped. -/
def clearZone (s : UIState) (z : NZ) : UIState :=
  let arr := s.zones z
  if arr.isEmpty then s
  else
    { s with
        decklist := arr.foldl (fun dl item => addBackToDecklist dl item.id) s.decklist
        zones := setZone s.zones z []
        effectIds := s.effectIds.filter (fun e => arr.all (fun it => it.instanceId ≠ e)) }

/-- The total number of card instances of a deck-UI state: decklist
counts plus the lengths of the five instance zones. -/
def totalCards (s : UIState) : ℤ :=
  (s.decklist.map (fun c => c.count)).sum
    + (nzAll.map (fun z => ((s.zones z).length : ℤ))).sum

/-- All instance ids across the five instance zones, in zone order. -/
def allInstIds (s : UIState) : List String :=
  (nzAll.map (fun z => (s.zones z).map (fun i => i.instanceId))).flatten

/-! ## Event view of the payload builders

Both payload builders are folds of name-increment events through the JS
Map; the event view makes the two loops one function of a flag, for the
characterization proofs. -/

/-- One accumulation event: skip it when the guard flags an empty name
or the increment is not positive, else add into the map. -/
def applyEv (g : Bool) (m : List (String × Int)) (e : String × Int) : List (String × Int) :=
  if (g = true ∧ e.1 = "") ∨ e.2 ≤ 0 then m
  else mapSet m e.1 ((mapGet m e.1).getD 0 + e.2)

/-- The event stream of deckPayload: one event per decklist card, with
the JS default count 1. -/
def deckEvents (l : List DeckCard) : List (String × Int) :=
  l.map (fun c => (c.name, c.count.getD 1))

/-- The event stream of fullStateDeckPayload: decklist counts with the
JS default 0, then one event per top-zone and bottom-zone card. -/
def fsEvents (l : List DeckCard) (top bottom : List ZoneCard) : List (String × Int) :=
  l.map (fun c => (c.name, c.count.getD 0)) ++ (top ++ bottom).map (fun c => (c.name, (1 : Int)))

/-- The sum of the positive increments an event stream carries for a
name: what the payload entry for that name must hold. -/
def posSum (evs : List (String × Int)) (k : String) : Int :=
  ((evs.filter (fun e => e.1 = k ∧ 0 < e.2)).map (fun e => e.2)).sum

/-- The keys of a modelled JS Map, in iteration order. -/
def keysOf (m : List (String × Int)) : List String := m.map (fun e => e.1)

/-- The multiset of instance ids across the five instance zones, for
permutation reasoning about zone moves. -/
def msOf (zs : NZ → List Inst) : Multiset String :=
  (nzAll.map (fun z => (((zs z).map (fun i => i.instanceId) : List String) : Multiset String))).sum

/-! ## C10: category derivation is total and first-match ordered -/

/-- The if-chain of pickCategory agrees with first-match search over the
ordered keyword list. -/
theorem pickCat_if_eq_find (tl : String) :
    (if jsIncludes tl "land" then "land"
     else if jsIncludes tl "creature" then "creature"
     else if jsIncludes tl "artifact" then "artifact"
     else if jsIncludes tl "instant" then "instant"
     else if jsIncludes tl "sorcery" then "sorcery"
     else if jsIncludes tl "enchantment" then "enchantment"
     else if jsIncludes tl "planeswalker" then "planeswalker"
     else "other")
      = (categoryKeywords.find? (fun k => jsIncludes tl k)).getD "other" := by
  unfold categoryKeywords
  cases h1 : jsIncludes tl "land" <;>
    cases h2 : jsIncludes tl "creature" <;>
      cases h3 : jsIncludes tl "artifact" <;>
        cases h4 : jsIncludes tl "instant" <;>
          cases h5 : jsIncludes tl "sorcery" <;>
            cases h6 : jsIncludes tl "enchantment" <;>
              cases h7 : jsIncludes tl "planeswalker" <;>
                simp [List.find?, h1, h2, h3, h4, h5, h6, h7]

/-- pickCategory refines the spec's first-match reading. -/
theorem pickCategory_eq_spec (t : Option String) : pickCategory t = specPickCategory t := by
  have h := pickCat_if_eq_find (jsToLower (t.getD ""))
  simpa [pickCategory, specPickCategory] using h

/-- C10: pickCategory is total — every type line, including an absent
one, lands in exactly one of the eight categories — and is first-match
ordered over the fixed keyword order, so any type line containing
"land" is categorized as land no matter what else it contains. -/
theorem pickCategory_total_and_ordered :
    (∀ t : Option String,
        pickCategory t ∈ (["land", "creature", "artifact", "instant",
          "sorcery", "enchantment", "planeswalker", "other"] : List String))
    ∧ (∀ t : Option String, pickCategory t = specPickCategory t)
    ∧ (∀ t : Option String,
        jsIncludes (jsToLower (t.getD "")) "land" = true → pickCategory t = "land") := by
  refine ⟨?_, pickCategory_eq_spec, ?_⟩
  · intro t
    rw [pickCategory_eq_spec t]
    unfold specPickCategory
    cases hf : categoryKeywords.find? (fun k => jsIncludes (jsToLower (t.getD "")) k) with
    | none => simp
    | some k =>
        have hk : k ∈ categoryKeywords := List.mem_of_find?_eq_some hf
        simp only [Option.getD_some]
        simp [categoryKeywords] at hk
        rcases hk with h | h | h | h | h | h | h <;> subst h <;> simp
  · intro t h
    unfold pickCategory
    simp [h]

/-- Witness for C10: a type line containing both creature and land is
categorized as land. -/
theorem pickCategory_total_and_ordered_witness :
    pickCategory (some "Artifact Creature Land") = "land" :=
  pickCategory_total_and_ordered.2.2 (some "Artifact Creature Land") (by decide)

/-! ## C8: runSimForState aggregates by unclamped summation -/

/-- The foldl accumulation of probNowOf, peeled against an arbitrary
starting accumulator. -/
theorem probNowOf_foldl (ac : List CardMeta) (cl : String) :
    ∀ (l : List FSEntry) (a : ℚ),
      l.foldl
          (fun acc e =>
            if pickCategory ((ac.find? (fun c => c.name = e.name)).bind (fun c => c.type_line))
                = cl
            then acc + e.p_now else acc)
          a
        = a + ((l.filter (fun e =>
              pickCategory ((ac.find? (fun c => c.name = e.name)).bind (fun c => c.type_line))
                = cl)).map (fun e => e.p_now)).sum := by
  intro l
  induction l with
  | nil => intro a; simp
  | cons e rest ih =>
      intro a
      by_cases hc :
          pickCategory ((ac.find? (fun c => c.name = e.name)).bind (fun c => c.type_line)) = cl
      · simp only [List.foldl_cons, if_pos hc, ih, List.filter_cons, hc]
        simp [add_assoc]
      · simp only [List.foldl_cons, if_neg hc, ih, List.filter_cons, hc]
        simp [hc]

/-- probNowOf is exactly the sum of p_now over category-matching
entries. -/
theorem probNowOf_eq_sum (ac : List CardMeta) (cl : String) (l : List FSEntry) :
    probNowOf ac cl l
      = ((l.filter (fun e =>
            pickCategory ((ac.find? (fun c => c.name = e.name)).bind (fun c => c.type_line))
              = cl)).map (fun e => e.p_now)).sum := by
  have h := probNowOf_foldl ac cl l 0
  simpa [probNowOf] using h

/-- C8: the full-state aggregate probability runSimForState reports is
the plain arithmetic sum of p_now over entries whose derived category
matches the request, with no clamping — at a deck with two land cards
each at p_now 1 the reported probability is 2, above 1. -/
theorem runSimForStateSynth_sum_unclamped :
    (∀ (allCards : List CardMeta) (category : String) (res : FSResponse),
        (runSimForStateSynth allCards category res).probability
          = ((res.results.filter (fun e =>
                pickCategory
                    ((allCards.find? (fun c => c.name = e.name)).bind (fun c => c.type_line))
                  = jsToLower category)).map (fun e => e.p_now)).sum)
    ∧ 1 < (runSimForStateSynth
            [⟨"A", some "Land"⟩, ⟨"B", some "Land"⟩] "land"
            ⟨[⟨"A", 1⟩, ⟨"B", 1⟩], 20000⟩).probability := by
  constructor
  · intro allCards category res
    simpa [runSimForStateSynth] using
      probNowOf_eq_sum allCards (jsToLower category) res.results
  · have hA : pickCategory
        (((([⟨"A", some "Land"⟩, ⟨"B", some "Land"⟩] : List CardMeta).find?
            (fun c => c.name = "A")).bind (fun c => c.type_line))) = jsToLower "land" := by
      decide
    have hB : pickCategory
        (((([⟨"A", some "Land"⟩, ⟨"B", some "Land"⟩] : List CardMeta).find?
            (fun c => c.name = "B")).bind (fun c => c.type_line))) = jsToLower "land" := by
      decide
    show (1 : ℚ) < probNowOf [⟨"A", some "Land"⟩, ⟨"B", some "Land"⟩] (jsToLower "land")
        [⟨"A", 1⟩, ⟨"B", 1⟩]
    unfold probNowOf
    simp only [List.foldl_cons, List.foldl_nil, hA, hB, if_pos]
    norm_num

theorem mapGet_mapSet_self (m : List (String × Int)) (k : String) (v : Int) :
    mapGet (mapSet m k v) k = some v := by
  induction m with
  | nil => simp [mapSet, mapGet]
  | cons e rest ih =>
      obtain ⟨k₁, v₁⟩ := e
      by_cases h : k₁ = k
      · simp [mapSet, h, mapGet]
      · simp [mapSet, h, mapGet, ih]

theorem mapGet_mapSet_ne (m : List (String × Int)) (k k₀ : String) (v : Int) (h : k₀ ≠ k) :
    mapGet (mapSet m k v) k₀ = mapGet m k₀ := by
  induction m with
  | nil => simp [mapSet, mapGet, Ne.symm h]
  | cons e rest ih =>
      obtain ⟨k₁, v₁⟩ := e
      by_cases h₁ : k₁ = k
      · subst h₁
        simp [mapSet, mapGet, Ne.symm h]
      · simp [mapSet, h₁, mapGet, ih]

theorem mapGet_mem (m : List (String × Int)) (k : String) (v : Int) :
    mapGet m k = some v → (k, v) ∈ m := by
  induction m with
  | nil => simp [mapGet]
  | cons e rest ih =>
      obtain ⟨k₁, v₁⟩ := e
      by_cases h : k₁ = k
      · subst h
        intro hg
        simp [mapGet] at hg
        subst hg
        exact List.mem_cons_self _ _
      · intro hg
        simp only [mapGet, if_neg h] at hg
        exact List.mem_cons_of_mem _ (ih hg)

theorem mapGet_eq_none_iff (m : List (String × Int)) (k : String) :
    mapGet m k = none ↔ k ∉ keysOf m := by
  induction m with
  | nil => simp [mapGet, keysOf]
  | cons e rest ih =>
      obtain ⟨k₁, v₁⟩ := e
      by_cases h : k₁ = k
      · subst h
        simp [mapGet, keysOf]
      · have hne : ¬k = k₁ := fun hh => h hh.symm
        simp only [mapGet, if_neg h, keysOf, List.map_cons, List.mem_cons, not_or]
        rw [keysOf] at ih
        constructor
        · intro hg
          exact ⟨hne, ih.mp hg⟩
        · intro hg
          exact ih.mpr hg.2

theorem mem_mapSet (m : List (String × Int)) (k : String) (v : Int) (e : String × Int) :
    e ∈ mapSet m k v → e ∈ m ∨ e = (k, v) := by
  induction m with
  | nil =>
      intro h
      simp [mapSet] at h
      exact .inr h
  | cons e₁ rest ih =>
      obtain ⟨k₁, v₁⟩ := e₁
      by_cases h : k₁ = k
      · subst h
        intro hm
        simp only [mapSet, if_pos rfl] at hm
        rcases List.mem_cons.mp hm with he | he
        · exact .inr he
        · exact .inl (List.mem_cons_of_mem _ he)
      · intro hm
        simp only [mapSet, if_neg h] at hm
        rcases List.mem_cons.mp hm with he | he
        · exact .inl (he ▸ List.mem_cons_self _ _)
        · rcases ih he with h₂ | h₂
          · exact .inl (List.mem_cons_of_mem _ h₂)
          · exact .inr h₂

theorem keysOf_mapSet (m : List (String × Int)) (k : String) (v : Int) :
    keysOf (mapSet m k v)
      = if k ∈ keysOf m then keysOf m else keysOf m ++ [k] := by
  induction m with
  | nil => simp [mapSet, keysOf]
  | cons e rest ih =>
      obtain ⟨k₁, v₁⟩ := e
      by_cases h : k₁ = k
      · subst h
        simp [mapSet, keysOf]
      · have hne : ¬k = k₁ := fun hh => h hh.symm
        simp only [mapSet, if_neg h, keysOf, List.map_cons, List.mem_cons] at ih ⊢
        rw [ih]
        by_cases hm : k ∈ List.map (fun e => e.1) rest
        · simp [hm, hne]
        · simp [hm, hne]

theorem posSum_cons (e : String × Int) (evs : List (String × Int)) (k : String) :
    posSum (e :: evs) k
      = (if e.1 = k ∧ 0 < e.2 then e.2 else 0) + posSum evs k := by
  by_cases h : e.1 = k ∧ 0 < e.2
  · simp [posSum, List.filter_cons, h]
  · simp [posSum, List.filter_cons, h]

theorem posSum_nonneg (evs : List (String × Int)) (k : String) : 0 ≤ posSum evs k := by
  induction evs with
  | nil => simp [posSum]
  | cons e rest ih =>
      rw [posSum_cons]
      by_cases h : e.1 = k ∧ 0 < e.2
      · rcases h with ⟨h1, h2⟩
        simp [h1, h2]
        omega
      · simp [h]
        exact ih

theorem applyEv_foldl_mapGet (g : Bool) (evs : List (String × Int)) :
    ∀ (m : List (String × Int)) (k : String), (g = true → k ≠ "") →
      mapGet (evs.foldl (applyEv g) m) k =
        if posSum evs k = 0 then mapGet m k
        else some ((mapGet m k).getD 0 + posSum evs k) := by
  induction evs with
  | nil =>
      intro m k _
      simp [posSum]
  | cons e rest ih =>
      intro m k hk
      rw [List.foldl_cons, posSum_cons]
      by_cases hskip : (g = true ∧ e.1 = "") ∨ e.2 ≤ 0
      · have hstep : applyEv g m e = m := by
          unfold applyEv
          exact if_pos hskip
        have hcontrib : ¬(e.1 = k ∧ 0 < e.2) := by
          rcases hskip with ⟨hg, hemp⟩ | hle
          · intro hc
            exact hk hg (hc.1 ▸ hemp)
          · intro hc
            omega
        rw [hstep, if_neg hcontrib, zero_add]
        exact ih m k hk
      · push_neg at hskip
        obtain ⟨hname, hpos⟩ := hskip
        have hstep : applyEv g m e
            = mapSet m e.1 ((mapGet m e.1).getD 0 + e.2) := by
          unfold applyEv
          rw [if_neg]
          push_neg
          exact ⟨hname, hpos⟩
        rw [hstep]
        by_cases hke : e.1 = k
        · have hcontrib : (if e.1 = k ∧ 0 < e.2 then e.2 else 0) = e.2 := by
            rw [if_pos ⟨hke, by omega⟩]
          rw [hcontrib]
          rw [ih _ k hk]
          rw [hke, mapGet_mapSet_self]
          have hnz : ¬(e.2 + posSum rest k = 0) := by
            have := posSum_nonneg rest k
            omega
          rw [if_neg hnz]
          by_cases hrest : posSum rest k = 0
          · rw [if_pos hrest, hrest]
            simp
          · rw [if_neg hrest]
            simp
            omega
        · have hcontrib : (if e.1 = k ∧ 0 < e.2 then e.2 else 0) = 0 := by
            rw [if_neg (fun hc => hke hc.1)]
          rw [hcontrib, zero_add]
          rw [ih _ k hk]
          rw [mapGet_mapSet_ne _ _ _ _ (fun hh => hke hh.symm)]

theorem applyEv_foldl_mapGet_empty (evs : List (String × Int)) :
    ∀ m : List (String × Int), mapGet (evs.foldl (applyEv true) m) "" = mapGet m "" := by
  induction evs with
  | nil => intro m; rfl
  | cons e rest ih =>
      intro m
      rw [List.foldl_cons]
      by_cases hskip : (true = true ∧ e.1 = "") ∨ e.2 ≤ 0
      · have hstep : applyEv true m e = m := by
          unfold applyEv
          exact if_pos hskip
        rw [hstep, ih]
      · push_neg at hskip
        obtain ⟨hname, hpos⟩ := hskip
        have hstep : applyEv true m e
            = mapSet m e.1 ((mapGet m e.1).getD 0 + e.2) := by
          unfold applyEv
          rw [if_neg]
          push_neg
          exact ⟨hname, hpos⟩
        rw [hstep, ih]
        exact mapGet_mapSet_ne _ _ _ _ (fun hh => hname rfl hh.symm)

theorem applyEv_foldl_keys_nodup (g : Bool) (evs : List (String × Int)) :
    ∀ m : List (String × Int), (keysOf m).Nodup →
      (keysOf (evs.foldl (applyEv g) m)).Nodup := by
  induction evs with
  | nil => intro m hm; exact hm
  | cons e rest ih =>
      intro m hm
      rw [List.foldl_cons]
      apply ih
      unfold applyEv
      by_cases hskip : (g = true ∧ e.1 = "") ∨ e.2 ≤ 0
      · rw [if_pos hskip]; exact hm
      · rw [if_neg hskip, keysOf_mapSet]
        by_cases hmem : e.1 ∈ keysOf m
        · rw [if_pos hmem]; exact hm
        · rw [if_neg hmem]
          simp [List.nodup_append, hm, hmem]

theorem applyEv_foldl_pos (g : Bool) (evs : List (String × Int)) :
    ∀ m : List (String × Int), (∀ e₀ ∈ m, 0 < e₀.2) →
      ∀ e₀ ∈ evs.foldl (applyEv g) m, 0 < e₀.2 := by
  induction evs with
  | nil => intro m hm; exact hm
  | cons e rest ih =>
      intro m hm
      rw [List.foldl_cons]
      apply ih
      unfold applyEv
      by_cases hskip : (g = true ∧ e.1 = "") ∨ e.2 ≤ 0
      · rw [if_pos hskip]; exact hm
      · rw [if_neg hskip]
        push_neg at hskip
        obtain ⟨_, hpos⟩ := hskip
        intro e₀ he₀
        rcases mem_mapSet _ _ _ _ he₀ with hin | heq
        · exact hm e₀ hin
        · subst heq
          cases hg : mapGet m e.1 with
          | none => simp [hg]; omega
          | some w =>
              have hw : 0 < w := hm _ (mapGet_mem _ _ _ hg)
              simp [hg]
              omega

theorem deckPayload_eq_fold (l : List DeckCard) :
    deckPayload l = (deckEvents l).foldl (applyEv false) [] := by
  unfold deckPayload deckEvents
  rw [List.foldl_map]
  have hstep : deckPayloadStep = fun m c => applyEv false m (c.name, c.count.getD 1) := by
    funext m c
    simp [deckPayloadStep, applyEv]
  rw [hstep]

theorem fullState_eq_fold (l : List DeckCard) (top bottom : List ZoneCard) :
    fullStateDeckPayload l top bottom = (fsEvents l top bottom).foldl (applyEv true) [] := by
  unfold fullStateDeckPayload fsEvents
  have h1 : fsDeckStep = fun m (c : DeckCard) => applyEv true m (c.name, c.count.getD 0) := by
    funext m c
    by_cases hn : c.count.getD 0 ≤ 0
    · simp [fsDeckStep, applyEv, hn]
    · by_cases hname : c.name = ""
      · simp [fsDeckStep, applyEv, fsAdd, hn, hname]
      · simp [fsDeckStep, applyEv, fsAdd, hn, hname]
  have h2 : (fun m (c : ZoneCard) => fsAdd m c.name 1)
      = fun m (c : ZoneCard) => applyEv true m (c.name, (1 : Int)) := by
    funext m c
    simp [fsAdd, applyEv]
  rw [h1, h2]
  conv_rhs => rw [List.foldl_append, List.foldl_map, List.foldl_map]

/-- C9 counterexample: a decklist whose only card has the empty string
as its name and a positive count yields a deckPayload entry but no
fullStateDeckPayload entry, so the two builders do not agree on "one
entry per distinct card name with a positive count". -/
theorem fullStateDeckPayload_drops_empty_name :
    deckPayload [⟨"", some 2⟩] = [("", 2)]
    ∧ fullStateDeckPayload [⟨"", some 2⟩] [] [] = [] := by
  constructor
  · rfl
  · rfl

/-- C9 (amended): both payload builders emit exactly one entry per
distinct card name — keys are duplicate-free, a key is present exactly
when the name carries a positive total, the stored count is the sum of
the name's positive counts, and every emitted count is strictly
positive — except that fullStateDeckPayload additionally omits the
empty card name (and reads a missing decklist count as 0 where
deckPayload reads it as 1). -/
theorem payload_characterization :
    ∀ (l : List DeckCard) (top bottom : List ZoneCard),
      (keysOf (deckPayload l)).Nodup
      ∧ (∀ k, mapGet (deckPayload l) k
            = if posSum (deckEvents l) k = 0 then none else some (posSum (deckEvents l) k))
      ∧ (∀ k, k ∈ keysOf (deckPayload l) ↔ posSum (deckEvents l) k ≠ 0)
      ∧ (∀ e ∈ deckPayload l, 0 < e.2)
      ∧ (keysOf (fullStateDeckPayload l top bottom)).Nodup
      ∧ (∀ k, k ≠ "" →
            mapGet (fullStateDeckPayload l top bottom) k
              = if posSum (fsEvents l top bottom) k = 0 then none
                else some (posSum (fsEvents l top bottom) k))
      ∧ mapGet (fullStateDeckPayload l top bottom) "" = none
      ∧ (∀ e ∈ fullStateDeckPayload l top bottom, 0 < e.2) := by
  intro l top bottom
  have hget : ∀ k, mapGet (deckPayload l) k
      = if posSum (deckEvents l) k = 0 then none else some (posSum (deckEvents l) k) := by
    intro k
    rw [deckPayload_eq_fold]
    have h := applyEv_foldl_mapGet false (deckEvents l) [] k (by simp)
    simpa [mapGet] using h
  have hgetFS : ∀ k, k ≠ "" →
      mapGet (fullStateDeckPayload l top bottom) k
        = if posSum (fsEvents l top bottom) k = 0 then none
          else some (posSum (fsEvents l top bottom) k) := by
    intro k hk
    rw [fullState_eq_fold]
    have h := applyEv_foldl_mapGet true (fsEvents l top bottom) [] k (fun _ => hk)
    simpa [mapGet] using h
  refine ⟨?_, hget, ?_, ?_, ?_, hgetFS, ?_, ?_⟩
  · rw [deckPayload_eq_fold]
    exact applyEv_foldl_keys_nodup false _ [] (by simp [keysOf])
  · intro k
    rw [← not_iff_not, not_not, ← mapGet_eq_none_iff, hget k]
    by_cases hz : posSum (deckEvents l) k = 0
    · simp [hz]
    · simp [hz]
  · rw [deckPayload_eq_fold]
    exact applyEv_foldl_pos false _ [] (by simp)
  · rw [fullState_eq_fold]
    exact applyEv_foldl_keys_nodup true _ [] (by simp [keysOf])
  · rw [fullState_eq_fold]
    exact applyEv_foldl_mapGet_empty _ []
  · rw [fullState_eq_fold]
    exact applyEv_foldl_pos true _ [] (by simp)

/-- Witness for C9 (amended) at a decklist with a repeated name, a
missing count, a zero count, and a top-zone copy. -/
theorem payload_characterization_witness :
    mapGet (deckPayload [⟨"a", some 2⟩, ⟨"b", none⟩, ⟨"a", some 3⟩, ⟨"c", some 0⟩]) "a"
        = (if posSum (deckEvents [⟨"a", some 2⟩, ⟨"b", none⟩, ⟨"a", some 3⟩, ⟨"c", some 0⟩]) "a" = 0
           then none
           else some (posSum (deckEvents [⟨"a", some 2⟩, ⟨"b", none⟩, ⟨"a", some 3⟩, ⟨"c", some 0⟩]) "a"))
    ∧ mapGet (fullStateDeckPayload [⟨"a", some 2⟩, ⟨"b", none⟩, ⟨"a", some 3⟩, ⟨"c", some 0⟩]
          [⟨"a"⟩] []) "a"
        = (if posSum (fsEvents [⟨"a", some 2⟩, ⟨"b", none⟩, ⟨"a", some 3⟩, ⟨"c", some 0⟩]
              [⟨"a"⟩] []) "a" = 0
           then none
           else some (posSum (fsEvents [⟨"a", some 2⟩, ⟨"b", none⟩, ⟨"a", some 3⟩, ⟨"c", some 0⟩]
              [⟨"a"⟩] []) "a")) :=
  ⟨(payload_characterization [⟨"a", some 2⟩, ⟨"b", none⟩, ⟨"a", some 3⟩, ⟨"c", some 0⟩]
      [⟨"a"⟩] []).2.1 "a",
   (payload_characterization [⟨"a", some 2⟩, ⟨"b", none⟩, ⟨"a", some 3⟩, ⟨"c", some 0⟩]
      [⟨"a"⟩] []).2.2.2.2.2.1 "a" (by decide)⟩

theorem jsRound_natCast (n : ℕ) : jsRound (n : ℚ) = (n : ℤ) := by
  unfold jsRound
  rw [Int.floor_nat_add]
  norm_num

theorem sum_of_ratios (N : ℕ) :
    ∀ qs : List ℚ, (∀ q ∈ qs, ∃ h : ℕ, q = (h : ℚ) / N) →
      ∃ H : ℕ, qs.sum = (H : ℚ) / N := by
  intro qs
  induction qs with
  | nil =>
      intro _
      exact ⟨0, by simp⟩
  | cons q rest ih =>
      intro hq
      obtain ⟨h, hh⟩ := hq q (List.mem_cons_self _ _)
      obtain ⟨H, hH⟩ := ih (fun q₁ hq₁ => hq q₁ (List.mem_cons_of_mem _ hq₁))
      refine ⟨h + H, ?_⟩
      rw [List.sum_cons, hh, hH, div_add_div_same]
      push_cast
      ring

theorem probNowOf_hits_div (ac : List CardMeta) (cl : String) (res : FSResponse)
    (hl : ∀ e ∈ res.results, ∃ h : ℕ, e.p_now = (h : ℚ) / (res.num_simulations : ℚ)) :
    ∃ H : ℕ, probNowOf ac cl res.results = (H : ℚ) / (res.num_simulations : ℚ) := by
  rw [probNowOf_eq_sum]
  apply sum_of_ratios
  intro q hq
  obtain ⟨e, he, rfl⟩ := List.mem_map.mp hq
  exact hl e (List.mem_filter.mp he).1

theorem ratio_round_div (N : ℕ) (hN : 0 < N) (q : ℚ) (H : ℕ) (hq : q = (H : ℚ) / N) :
    q = (jsRound (q * N) : ℚ) / N := by
  have hNz : (N : ℚ) ≠ 0 := by positivity
  rw [hq, div_mul_cancel₀ _ hNz, jsRound_natCast]
  push_cast
  ring

/-- C1: every synthetic full-state result the frontend returns — both
the per-category result of runSimForState and the per-card result of
runSimForCard — satisfies probability = hits / trials, with hits derived
by rounding probability times the trial count, provided the backend
entries it consumes are themselves hit ratios over the reported trial
count. -/
theorem synth_probability_eq_hits_div_trials :
    ∀ (allCards : List CardMeta) (category cardName : String) (res : FSResponse),
      0 < res.num_simulations →
      (∀ e ∈ res.results, ∃ h : ℕ, e.p_now = (h : ℚ) / (res.num_simulations : ℚ)) →
      ((runSimForStateSynth allCards category res).probability
          = ((runSimForStateSynth allCards category res).hits : ℚ)
              / ((runSimForStateSynth allCards category res).simulations_run : ℚ)
       ∧ (runSimForCardSynth cardName res).probability
          = ((runSimForCardSynth cardName res).hits : ℚ)
              / ((runSimForCardSynth cardName res).simulations_run : ℚ)) := by
  intro ac cat cn res hN hl
  constructor
  · obtain ⟨H, hH⟩ := probNowOf_hits_div ac (jsToLower cat) res hl
    simp only [runSimForStateSynth]
    exact ratio_round_div res.num_simulations hN _ H hH
  · simp only [runSimForCardSynth]
    cases hfind : res.results.find? (fun r => jsToLower r.name = jsToLower cn) with
    | none =>
        simp only [Option.map_none', Option.getD_none]
        exact ratio_round_div res.num_simulations hN _ 0 (by simp)
    | some e =>
        have he : e ∈ res.results := List.mem_of_find?_eq_some hfind
        obtain ⟨h, hh⟩ := hl e he
        simp only [Option.map_some', Option.getD_some]
        exact ratio_round_div res.num_simulations hN _ h hh

/-- Witness for C1 at a one-entry response with one trial. -/
theorem synth_probability_eq_hits_div_trials_witness :
    ((runSimForStateSynth [] "land" ⟨[⟨"a", 1⟩], 1⟩).probability
        = ((runSimForStateSynth [] "land" ⟨[⟨"a", 1⟩], 1⟩).hits : ℚ)
            / ((runSimForStateSynth [] "land" ⟨[⟨"a", 1⟩], 1⟩).simulations_run : ℚ)
     ∧ (runSimForCardSynth "a" ⟨[⟨"a", 1⟩], 1⟩).probability
        = ((runSimForCardSynth "a" ⟨[⟨"a", 1⟩], 1⟩).hits : ℚ)
            / ((runSimForCardSynth "a" ⟨[⟨"a", 1⟩], 1⟩).simulations_run : ℚ)) :=
  synth_probability_eq_hits_div_trials [] "land" "a" ⟨[⟨"a", 1⟩], 1⟩ (by decide)
    (by
      intro e he
      simp at he
      subst he
      exact ⟨1, by simp⟩)

theorem fsEntryFor_name (knownTop : List String) (horizon trials : ℕ) (mc : String → ℚ)
    (m : String) : (fsEntryFor knownTop horizon trials mc m).name = m := by
  unfold fsEntryFor
  split <;> rfl

theorem find?_map_of_name (f : String → FSOut) (hf : ∀ m, (f m).name = m) :
    ∀ (M : List String) (n : String), n ∈ M →
      (M.map f).find? (fun o => o.name = n) = some (f n) := by
  intro M
  induction M with
  | nil => simp
  | cons m M ih =>
      intro n hn
      rw [List.map_cons, List.find?_cons]
      by_cases h : m = n
      · subst h
        simp [hf m]
      · have hp : (decide ((f m).name = n)) = false := by
          simp [hf m, h]
        rw [hp]
        rcases List.mem_cons.mp hn with h₁ | h₁
        · exact absurd h₁.symm h
        · exact ih n h₁

/-- C2: in the modelled full-state engine, any name occurring in
known-top within the reveal horizon gets p_now exactly 1 with zero
trials consumed, and a name of known-top outside the horizon gets
p_now 0, again with zero trials consumed. -/
theorem fullStateSim_knownTop_deterministic :
    ∀ (deck : List (String × ℕ)) (knownTop : List String) (horizon trials : ℕ)
      (mc : String → ℚ) (name : String),
      (name ∈ knownTop.take horizon →
        (fullStateSim deck knownTop horizon trials mc).find? (fun o => o.name = name)
          = some ⟨name, 1, 0⟩)
      ∧ (name ∈ knownTop → name ∉ knownTop.take horizon →
        (fullStateSim deck knownTop horizon trials mc).find? (fun o => o.name = name)
          = some ⟨name, 0, 0⟩) := by
  intro deck knownTop horizon trials mc name
  have hfind : name ∈ knownTop →
      (fullStateSim deck knownTop horizon trials mc).find? (fun o => o.name = name)
        = some (fsEntryFor knownTop horizon trials mc name) := by
    intro hmem
    unfold fullStateSim
    apply find?_map_of_name _ (fsEntryFor_name knownTop horizon trials mc)
    rw [List.mem_dedup]
    exact List.mem_append.mpr (.inr hmem)
  constructor
  · intro htake
    have hmem : name ∈ knownTop := List.take_subset horizon knownTop htake
    rw [hfind hmem]
    unfold fsEntryFor
    rw [if_pos hmem, if_pos htake]
  · intro hmem hout
    rw [hfind hmem]
    unfold fsEntryFor
    rw [if_pos hmem, if_neg hout]

/-- Witness for C2: known-top x then y with a reveal horizon of one
card — x is deterministic at 1 with zero trials, y at 0. -/
theorem fullStateSim_knownTop_deterministic_witness :
    ((fullStateSim [("z", 4)] ["x", "y"] 1 20000 (fun _ => 0)).find?
        (fun o => o.name = "x") = some ⟨"x", 1, 0⟩)
    ∧ ((fullStateSim [("z", 4)] ["x", "y"] 1 20000 (fun _ => 0)).find?
        (fun o => o.name = "y") = some ⟨"y", 0, 0⟩) :=
  ⟨(fullStateSim_knownTop_deterministic [("z", 4)] ["x", "y"] 1 20000 (fun _ => 0) "x").1
      (by decide),
   (fullStateSim_knownTop_deterministic [("z", 4)] ["x", "y"] 1 20000 (fun _ => 0) "y").2
      (by decide) (by decide)⟩

/-- C5: a draw attempted when known-top, the unknown portion and
known-bottom are all empty surfaces the EmptyLibraryDraw error at every
layer the caller sees — draw_one returns it, the draw phase aborts with
it, the trial's result is that error rather than an outcome, and the
batch aggregate for any positive trial count is that error, never a hit
count — so the condition is never converted into a silent
zero-probability result. -/
theorem draw_one_empty_is_error :
    ∀ (s : SimState) (r d rng : ℕ) (req : SimRequest) (seed n : ℕ),
      (s.knownTop = [] → totalUnknown s.unknown = 0 → s.knownBottom = [] →
        (draw_one s r = .error .emptyLibraryDraw
         ∧ runDraws (d + 1) s rng = .error .emptyLibraryDraw))
      ∧ (req.knownTop = [] → totalUnknown req.deck = 0 → req.knownBottom = [] →
          0 < req.draws →
          (runTrial req rng = .error .emptyLibraryDraw
           ∧ seqHits req seed (n + 1) = .error .emptyLibraryDraw
           ∧ ∀ h : ℕ, seqHits req seed (n + 1) ≠ .ok h)) := by
  have hrd : ∀ (s : SimState) (d rng : ℕ),
      s.knownTop = [] → totalUnknown s.unknown = 0 → s.knownBottom = [] →
      runDraws (d + 1) s rng = .error .emptyLibraryDraw := by
    intro s d rng ht hu hb
    have hdraw : ∀ r₁ : ℕ, draw_one s r₁ = .error .emptyLibraryDraw := by
      intro r₁
      simp [draw_one, ht, hu, hb]
    unfold runDraws
    rw [hdraw rng]
  intro s r d rng req seed n
  constructor
  · intro ht hu hb
    refine ⟨?_, hrd s d rng ht hu hb⟩
    simp [draw_one, ht, hu, hb]
  · intro hkt hdu hkb hdr
    have htrial : ∀ rng₁ : ℕ, runTrial req rng₁ = .error .emptyLibraryDraw := by
      intro rng₁
      simp only [runTrial]
      cases hd : req.draws with
      | zero => omega
      | succ k =>
          rw [hrd ⟨req.knownTop, req.deck, req.knownBottom, [], []⟩ k rng₁ hkt hdu hkb]
    have hseq : seqHits req seed (n + 1) = .error .emptyLibraryDraw := by
      unfold seqHits hitsFrom trialOutcomes
      rw [List.range_succ_eq_map, List.map_cons, htrial (subSeed seed (0 + 0))]
      rfl
    exact ⟨htrial rng, hseq, fun h => by rw [hseq]; simp⟩

/-- Witness for C5 at a state and a request whose every zone is
exhausted. -/
theorem draw_one_empty_is_error_witness :
    (draw_one ⟨[], [("a", 0)], [], ["b"], []⟩ 3 = .error .emptyLibraryDraw
     ∧ runDraws 1 ⟨[], [("a", 0)], [], ["b"], []⟩ 7 = .error .emptyLibraryDraw)
    ∧ (runTrial ⟨[("a", 0)], [], [], fun _ => false, 1⟩ 7 = .error .emptyLibraryDraw
       ∧ seqHits ⟨[("a", 0)], [], [], fun _ => false, 1⟩ 11 (4 + 1) = .error .emptyLibraryDraw
       ∧ seqHits ⟨[("a", 0)], [], [], fun _ => false, 1⟩ 11 (4 + 1) ≠ .ok 0) := by
  have h := draw_one_empty_is_error ⟨[], [("a", 0)], [], ["b"], []⟩ 3 0 7
    ⟨[("a", 0)], [], [], fun _ => false, 1⟩ 11 4
  have h₁ := h.1 rfl (by decide) rfl
  have h₂ := h.2 rfl (by decide) rfl (by decide)
  exact ⟨h₁, h₂.1, h₂.2.1, h₂.2.2 0⟩

theorem removeFirstMatch_none (pred : String → Bool) :
    ∀ u : List (String × ℕ), (∀ e ∈ u, 0 < e.2 → pred e.1 = false) →
      removeFirstMatch pred u = none := by
  intro u
  induction u with
  | nil => intro _; rfl
  | cons e rest ih =>
      intro h
      obtain ⟨n, c⟩ := e
      have hcond : ¬(pred n = true ∧ 0 < c) := by
        rintro ⟨hp, hc⟩
        have := h (n, c) (List.mem_cons_self _ _) hc
        simp [this] at hp
      unfold removeFirstMatch
      rw [if_neg hcond, ih (fun e₁ he₁ => h e₁ (List.mem_cons_of_mem _ he₁))]

/-- C6: when no card of the unknown portion with a positive remaining
count matches a tutor's predicate, resolving the tutor is a silent
no-op — the game state is unchanged, and in particular the single-draw
category probability (matching weight over total weight of the unknown
portion) equals the no-effect baseline for every category. -/
theorem tutor_fizzle_noop :
    ∀ (pred : String → Bool) (dest : TutorDest) (s : SimState),
      (∀ e ∈ s.unknown, 0 < e.2 → pred e.1 = false) →
      (tutorByPredicate pred dest s = s
       ∧ ∀ catPred : String → Bool,
           (categoryWeight catPred (tutorByPredicate pred dest s).unknown : ℚ)
               / (totalUnknown (tutorByPredicate pred dest s).unknown : ℚ)
             = (categoryWeight catPred s.unknown : ℚ)
                 / (totalUnknown s.unknown : ℚ)) := by
  intro pred dest s h
  have hid : tutorByPredicate pred dest s = s := by
    unfold tutorByPredicate
    rw [removeFirstMatch_none pred s.unknown h]
  exact ⟨hid, fun catPred => by rw [hid]⟩

/-- Witness for C6: a land tutor against an unknown portion holding
only Bears fizzles and leaves the state alone. -/
theorem tutor_fizzle_noop_witness :
    tutorByPredicate (fun n => jsIncludes n "land") .toHand ⟨[], [("Bear", 2)], [], [], []⟩
      = ⟨[], [("Bear", 2)], [], [], []⟩ :=
  (tutor_fizzle_noop (fun n => jsIncludes n "land") .toHand ⟨[], [("Bear", 2)], [], [], []⟩
      (by decide)).1

theorem collectHits_append :
    ∀ l₁ l₂ : List (Except DrawError Bool),
      collectHits (l₁ ++ l₂) = mergeE (collectHits l₁) (collectHits l₂) := by
  intro l₁
  induction l₁ with
  | nil =>
      intro l₂
      cases h : collectHits l₂ with
      | error e => simp [collectHits, mergeE, h]
      | ok k => simp [collectHits, mergeE, h]
  | cons o rest ih =>
      intro l₂
      cases o with
      | error e => simp [collectHits, mergeE]
      | ok b =>
          rw [List.cons_append]
          simp only [collectHits]
          rw [ih]
          cases h₁ : collectHits rest with
          | error e => simp [mergeE]
          | ok x =>
              cases h₂ : collectHits l₂ with
              | error e => simp [mergeE]
              | ok y => simp [mergeE, Nat.add_assoc]

theorem trialOutcomes_add (req : SimRequest) (seed offset a b : ℕ) :
    trialOutcomes req seed offset (a + b)
      = trialOutcomes req seed offset a ++ trialOutcomes req seed (offset + a) b := by
  unfold trialOutcomes
  rw [List.range_add, List.map_append, List.map_map]
  have hfun : ∀ k : ℕ, offset + (a + k) = offset + a + k :=
    fun k => (Nat.add_assoc offset a k).symm
  simp only [Function.comp_def, hfun]

theorem hitsFrom_add (req : SimRequest) (seed offset a b : ℕ) :
    hitsFrom req seed offset (a + b)
      = mergeE (hitsFrom req seed offset a) (hitsFrom req seed (offset + a) b) := by
  unfold hitsFrom
  rw [trialOutcomes_add, collectHits_append]

theorem parHits_eq_hitsFrom (req : SimRequest) (seed : ℕ) :
    ∀ (cs : List ℕ) (offset : ℕ),
      parHits req seed offset cs = hitsFrom req seed offset cs.sum := by
  intro cs
  induction cs with
  | nil =>
      intro offset
      simp [parHits, hitsFrom, trialOutcomes, collectHits]
  | cons c cs ih =>
      intro offset
      rw [List.sum_cons, hitsFrom_add]
      unfold parHits
      rw [ih]

/-- C7: for a fixed request, seed and trial count the modelled engine is
deterministic — however the trial range is partitioned into worker
chunks, merging the per-chunk aggregates gives exactly the sequential
aggregate, so the resulting hit count (or surfaced error) and the
derived probability are identical across parallelism degrees (and
across repeated runs, the engine being a pure function of request, seed
and trial count). -/
theorem simulation_reproducible_across_parallelism :
    ∀ (req : SimRequest) (seed n : ℕ) (cs : List ℕ),
      cs.sum = n →
      (parHits req seed 0 cs = seqHits req seed n
       ∧ (parHits req seed 0 cs).map (fun h => (h : ℚ) / (n : ℚ))
           = (seqHits req seed n).map (fun h => (h : ℚ) / (n : ℚ))) := by
  intro req seed n cs hsum
  have h := parHits_eq_hitsFrom req seed cs 0
  rw [hsum] at h
  unfold seqHits
  exact ⟨h, by rw [h]⟩

/-- Witness for C7: three trials split into chunks of one and two. -/
theorem simulation_reproducible_across_parallelism_witness :
    parHits ⟨[("Island", 2), ("Bolt", 1)], [], [], fun m => m == "Bolt", 2⟩ 42 0 [1, 2]
        = seqHits ⟨[("Island", 2), ("Bolt", 1)], [], [], fun m => m == "Bolt", 2⟩ 42 3 :=
  (simulation_reproducible_across_parallelism
      ⟨[("Island", 2), ("Bolt", 1)], [], [], fun m => m == "Bolt", 2⟩ 42 3 [1, 2]
      (by decide)).1

theorem pickUnknown_shift (n : String) (c : ℕ) (rest : List (String × ℕ)) (r : ℕ) :
    pickUnknown ((n, c) :: rest) (c + r)
      = ((pickUnknown rest r).1, (n, c) :: (pickUnknown rest r).2) := by
  simp only [pickUnknown]
  rw [if_neg (by omega), Nat.add_sub_cancel_left]

theorem totalUnknown_cons (n : String) (c : ℕ) (rest : List (String × ℕ)) :
    totalUnknown ((n, c) :: rest) = c + totalUnknown rest := by
  simp [totalUnknown]

theorem pickUnknown_total (u : List (String × ℕ)) :
    ∀ r, r < totalUnknown u → totalUnknown (pickUnknown u r).2 + 1 = totalUnknown u := by
  induction u with
  | nil =>
      intro r hr
      simp [totalUnknown] at hr
  | cons e rest ih =>
      obtain ⟨n, c⟩ := e
      intro r hr
      rw [totalUnknown_cons] at hr
      by_cases hc : r < c
      · unfold pickUnknown
        rw [if_pos hc]
        rw [totalUnknown_cons, totalUnknown_cons]
        omega
      · unfold pickUnknown
        rw [if_neg hc]
        rw [totalUnknown_cons, totalUnknown_cons]
        have hrec := ih (r - c) (by omega)
        omega

theorem pickUnknown_uniform (name : String) :
    ∀ u : List (String × ℕ),
      (List.range (totalUnknown u)).countP (fun r => (pickUnknown u r).1 == name)
        = categoryWeight (fun m => m == name) u := by
  intro u
  induction u with
  | nil => simp [totalUnknown, categoryWeight]
  | cons e rest ih =>
      obtain ⟨n, c⟩ := e
      rw [totalUnknown_cons, List.range_add, List.countP_append, List.countP_map]
      have hlow : (List.range c).countP (fun r => (pickUnknown ((n, c) :: rest) r).1 == name)
          = (List.range c).countP (fun _ => n == name) := by
        apply List.countP_congr
        intro r hr
        have hrc : r < c := List.mem_range.mp hr
        unfold pickUnknown
        rw [if_pos hrc]
      have hhigh : (List.range (totalUnknown rest)).countP
            ((fun r => (pickUnknown ((n, c) :: rest) r).1 == name) ∘ (fun r => c + r))
          = (List.range (totalUnknown rest)).countP
              (fun r => (pickUnknown rest r).1 == name) := by
        apply List.countP_congr
        intro r _
        simp only [Function.comp]
        rw [pickUnknown_shift]
      rw [hlow, hhigh, ih]
      have hweight : categoryWeight (fun m => m == name) ((n, c) :: rest)
          = (if n == name then c else 0) + categoryWeight (fun m => m == name) rest := by
        by_cases h : n == name
        · simp [categoryWeight, List.filter_cons, h]
        · simp [categoryWeight, List.filter_cons, h]
      rw [hweight]
      by_cases h : n == name
      · simp [h, List.countP_true]
      · simp [h, List.countP_false]

/-- C4: the modelled draw primitive takes the front of known-top when
non-empty; with known-top empty and the unknown portion inhabited it
removes the sampled card (one card leaves the unknown total) and the
sampling is uniform weighted by remaining per-name counts — over a full
residue range each name is drawn exactly its count many times; with the
unknown portion exhausted it takes the front of known-bottom; and every
successful draw pushes the drawn card onto the hand. -/
theorem draw_one_contract :
    ∀ (s : SimState) (r : ℕ),
      (∀ n rest, s.knownTop = n :: rest →
          draw_one s r = .ok { s with knownTop := rest, hand := n :: s.hand })
      ∧ (s.knownTop = [] → 0 < totalUnknown s.unknown →
          (draw_one s r
              = .ok { s with
                  unknown := (pickUnknown s.unknown (r % totalUnknown s.unknown)).2
                  hand := (pickUnknown s.unknown (r % totalUnknown s.unknown)).1 :: s.hand }
           ∧ totalUnknown (pickUnknown s.unknown (r % totalUnknown s.unknown)).2 + 1
               = totalUnknown s.unknown))
      ∧ (∀ n rest, s.knownTop = [] → totalUnknown s.unknown = 0 →
          s.knownBottom = n :: rest →
          draw_one s r = .ok { s with knownBottom := rest, hand := n :: s.hand })
      ∧ (∀ s₁, draw_one s r = .ok s₁ → ∃ c, s₁.hand = c :: s.hand)
      ∧ (∀ name : String,
          (List.range (totalUnknown s.unknown)).countP
              (fun i => (pickUnknown s.unknown i).1 == name)
            = categoryWeight (fun m => m == name) s.unknown) := by
  intro s r
  refine ⟨?_, ?_, ?_, ?_, fun name => pickUnknown_uniform name s.unknown⟩
  · intro n rest ht
    simp [draw_one, ht]
  · intro ht hu
    constructor
    · simp [draw_one, ht, hu]
    · exact pickUnknown_total s.unknown _ (Nat.mod_lt r hu)
  · intro n rest ht hu hb
    simp [draw_one, ht, hu, hb]
  · intro s₁ hok
    unfold draw_one at hok
    cases hkt : s.knownTop with
    | cons n rest =>
        rw [hkt] at hok
        simp at hok
        exact ⟨n, by rw [← hok]⟩
    | nil =>
        rw [hkt] at hok
        by_cases hu : 0 < totalUnknown s.unknown
        · rw [if_pos hu] at hok
          simp at hok
          exact ⟨(pickUnknown s.unknown (r % totalUnknown s.unknown)).1, by rw [← hok]⟩
        · rw [if_neg hu] at hok
          cases hkb : s.knownBottom with
          | cons n rest =>
              rw [hkb] at hok
              simp at hok
              exact ⟨n, by rw [← hok]⟩
          | nil =>
              rw [hkb] at hok
              simp at hok

/-- Witness for C4 at a state with a known top card. -/
theorem draw_one_contract_witness :
    draw_one ⟨["Opt"], [("Island", 2)], [], [], []⟩ 5
      = .ok ⟨[], [("Island", 2)], [], ["Opt"], []⟩ :=
  (draw_one_contract ⟨["Opt"], [("Island", 2)], [], [], []⟩ 5).1 "Opt" [] rfl

theorem sum_map_update_one {M : Type} [AddCommMonoid M] (L : List NZ) (f g : NZ → M) (z : NZ)
    (hz : z ∈ L) (hnd : L.Nodup) (hother : ∀ w, w ≠ z → g w = f w) :
    (L.map g).sum + f z = (L.map f).sum + g z := by
  induction L with
  | nil => cases hz
  | cons w L ih =>
      rw [List.map_cons, List.map_cons, List.sum_cons, List.sum_cons]
      rcases List.mem_cons.mp hz with hwz | hzL
      · subst hwz
        have hLsame : L.map g = L.map f := by
          apply List.map_congr_left
          intro w' hw'
          exact hother w' (fun hww => (List.nodup_cons.mp hnd).1 (hww ▸ hw'))
        rw [hLsame]
        abel
      · by_cases hwz : w = z
        · exact absurd hzL (hwz ▸ (List.nodup_cons.mp hnd).1)
        · rw [hother w hwz]
          have h := ih hzL (List.nodup_cons.mp hnd).2
          calc f w + (L.map g).sum + f z
              = f w + ((L.map g).sum + f z) := by rw [add_assoc]
            _ = f w + ((L.map f).sum + g z) := by rw [h]
            _ = f w + (L.map f).sum + g z := by rw [add_assoc]

theorem nz_mem_nzAll (z : NZ) : z ∈ nzAll := by
  cases z <;> simp [nzAll]

theorem nzAll_nodup : nzAll.Nodup := by decide

theorem msOf_set (zs : NZ → List Inst) (z : NZ) (l : List Inst) :
    msOf (setZone zs z l)
        + (((zs z).map (fun i => i.instanceId) : List String) : Multiset String)
      = msOf zs + ((l.map (fun i => i.instanceId) : List String) : Multiset String) := by
  unfold msOf
  have h := sum_map_update_one nzAll
    (fun w => (((zs w).map (fun i => i.instanceId) : List String) : Multiset String))
    (fun w => (((setZone zs z l w).map (fun i => i.instanceId) : List String) : Multiset String))
    z (nz_mem_nzAll z) nzAll_nodup
    (fun w hw => by simp [setZone, hw])
  simpa [setZone] using h

theorem zoneLen_set (zs : NZ → List Inst) (z : NZ) (l : List Inst) :
    (nzAll.map (fun w => ((setZone zs z l w).length : ℤ))).sum + ((zs z).length : ℤ)
      = (nzAll.map (fun w => ((zs w).length : ℤ))).sum + (l.length : ℤ) := by
  have h := sum_map_update_one nzAll
    (fun w => ((zs w).length : ℤ))
    (fun w => ((setZone zs z l w).length : ℤ))
    z (nz_mem_nzAll z) nzAll_nodup
    (fun w hw => by simp [setZone, hw])
  simpa [setZone] using h

theorem removeOne_some_perm (m : String) :
    ∀ (arr arr' : List Inst) (item : Inst),
      removeOne arr m = (arr', some item) → arr.Perm (item :: arr') := by
  intro arr
  induction arr with
  | nil => intro arr' item h; simp [removeOne] at h
  | cons c rest ih =>
      intro arr' item h
      by_cases hc : c.instanceId = m ∨ c.id = m
      · simp only [removeOne, if_pos hc] at h
        injection h with h1 h2
        injection h2 with h2
        subst h1
        subst h2
        exact List.Perm.refl _
      · simp only [removeOne, if_neg hc] at h
        injection h with h1 h2
        have hrec := ih (removeOne rest m).1 item (by rw [← h2])
        subst h1
        exact (List.Perm.cons c hrec).trans (List.Perm.swap item c _)

theorem removeOne_snd_perm (arr : List Inst) (m : String) (item : Inst)
    (h : (removeOne arr m).2 = some item) :
    arr.Perm (item :: (removeOne arr m).1) :=
  removeOne_some_perm m arr (removeOne arr m).1 item (by rw [← h])

theorem removeOne_snd_ms (arr : List Inst) (m : String) (item : Inst)
    (h : (removeOne arr m).2 = some item) :
    ((arr.map (fun i => i.instanceId) : List String) : Multiset String)
      = item.instanceId
          ::ₘ (((removeOne arr m).1.map (fun i => i.instanceId) : List String) : Multiset String) := by
  have hperm := (removeOne_snd_perm arr m item h).map (fun i => i.instanceId)
  exact Multiset.coe_eq_coe.mpr hperm

theorem removeOne_snd_len (arr : List Inst) (m : String) (item : Inst)
    (h : (removeOne arr m).2 = some item) :
    arr.length = (removeOne arr m).1.length + 1 := by
  have := (removeOne_snd_perm arr m item h).length_eq
  simpa using this

theorem removeFromDecklist_sum (cid : String) :
    ∀ (dl : List DLCard) (p : List DLCard × DLCard),
      removeFromDecklist dl cid = some p →
      (p.1.map (fun c => c.count)).sum + 1 = (dl.map (fun c => c.count)).sum := by
  intro dl
  induction dl with
  | nil => intro p h; simp [removeFromDecklist] at h
  | cons c rest ih =>
      intro p h
      by_cases hid : c.id = cid
      · by_cases hcount : 0 < c.count
        · simp only [removeFromDecklist, if_pos hid, if_pos hcount] at h
          injection h with h
          subst h
          simp
          ring
        · simp [removeFromDecklist, hid, hcount] at h
      · simp only [removeFromDecklist, if_neg hid] at h
        cases hrec : removeFromDecklist rest cid with
        | none => rw [hrec] at h; simp at h
        | some q =>
            rw [hrec] at h
            simp only [Option.map_some'] at h
            injection h with h
            subst h
            have := ih q hrec
            simp
            omega

theorem incFirst_sum (cid : String) :
    ∀ (dl dl₁ : List DLCard), incFirst dl cid = some dl₁ →
      (dl₁.map (fun c => c.count)).sum = (dl.map (fun c => c.count)).sum + 1 := by
  intro dl
  induction dl with
  | nil => intro dl₁ h; simp [incFirst] at h
  | cons c rest ih =>
      intro dl₁ h
      by_cases hid : c.id = cid
      · simp only [incFirst, if_pos hid] at h
        injection h with h
        subst h
        simp
        ring
      · simp only [incFirst, if_neg hid] at h
        cases hrec : incFirst rest cid with
        | none => rw [hrec] at h; simp at h
        | some q =>
            rw [hrec] at h
            simp only [Option.map_some'] at h
            injection h with h
            subst h
            have := ih q hrec
            simp
            omega

theorem addToDecklist_sum (dl : List DLCard) (cid : String) :
    ((addToDecklist dl cid).map (fun c => c.count)).sum
      = (dl.map (fun c => c.count)).sum + 1 := by
  unfold addToDecklist
  cases hrec : incFirst dl cid with
  | none => simp
  | some dl₁ => exact incFirst_sum cid dl dl₁ hrec

theorem incLast_sum (cid : String) :
    ∀ (dl dl₁ : List DLCard), incLast dl cid = some dl₁ →
      (dl₁.map (fun c => c.count)).sum = (dl.map (fun c => c.count)).sum + 1 := by
  intro dl
  induction dl with
  | nil => intro dl₁ h; simp [incLast] at h
  | cons c rest ih =>
      intro dl₁ h
      unfold incLast at h
      cases hrec : incLast rest cid with
      | some q =>
          rw [hrec] at h
          injection h with h
          subst h
          have := ih q hrec
          simp
          omega
      | none =>
          rw [hrec] at h
          by_cases hid : c.id = cid
          · rw [if_pos hid] at h
            injection h with h
            subst h
            simp
            ring
          · rw [if_neg hid] at h
            simp at h

theorem addBackToDecklist_sum (dl : List DLCard) (cid : String) :
    ((addBackToDecklist dl cid).map (fun c => c.count)).sum
      = (dl.map (fun c => c.count)).sum + 1 := by
  unfold addBackToDecklist
  cases hrec : incLast dl cid with
  | none => simp
  | some dl₁ => exact incLast_sum cid dl dl₁ hrec

theorem foldl_addBack_sum :
    ∀ (arr : List Inst) (dl : List DLCard),
      ((arr.foldl (fun dl₁ item => addBackToDecklist dl₁ item.id) dl).map
          (fun c => c.count)).sum
        = (dl.map (fun c => c.count)).sum + arr.length := by
  intro arr
  induction arr with
  | nil => intro dl; simp
  | cons it rest ih =>
      intro dl
      rw [List.foldl_cons, ih, addBackToDecklist_sum]
      simp
      omega

theorem allInstIds_coe (s : UIState) :
    ((allInstIds s : List String) : Multiset String) = msOf s.zones := by
  unfold allInstIds msOf
  simp [nzAll]

theorem nodup_msOf_iff (s : UIState) :
    (allInstIds s).Nodup ↔ (msOf s.zones).Nodup := by
  rw [← allInstIds_coe]
  exact (Multiset.coe_nodup).symm

theorem mem_msOf_iff (s : UIState) (x : String) :
    x ∈ allInstIds s ↔ x ∈ msOf s.zones := by
  rw [← allInstIds_coe]
  exact (Multiset.mem_coe).symm

theorem msOf_append_new (zs : NZ → List Inst) (z : NZ) (it : Inst) :
    msOf (setZone zs z (zs z ++ [it])) = it.instanceId ::ₘ msOf zs := by
  have h := msOf_set zs z (zs z ++ [it])
  have happ : (((zs z ++ [it]).map (fun i => i.instanceId) : List String) : Multiset String)
      = (((zs z).map (fun i => i.instanceId) : List String) : Multiset String)
          + {it.instanceId} := by
    simp
    rw [← Multiset.coe_singleton, ← Multiset.coe_add]
  rw [happ] at h
  apply add_right_cancel (b := (((zs z).map (fun i => i.instanceId) : List String) : Multiset String))
  rw [h, ← Multiset.singleton_add]
  abel

theorem msOf_set_remove (zs : NZ → List Inst) (z : NZ) (m : String) (item : Inst)
    (h : (removeOne (zs z) m).2 = some item) :
    msOf (setZone zs z ((removeOne (zs z) m).1)) + {item.instanceId} = msOf zs := by
  have h1 := msOf_set zs z ((removeOne (zs z) m).1)
  rw [removeOne_snd_ms (zs z) m item h, ← Multiset.singleton_add] at h1
  apply add_right_cancel
    (b := (((removeOne (zs z) m).1.map (fun i => i.instanceId) : List String) : Multiset String))
  rw [add_assoc, h1]

theorem moveCard_totalCards (s : UIState) (cid nid : String) (fz tz : Zone) (h : fz ≠ tz) :
    totalCards (moveCard s cid fz tz nid) = totalCards s := by
  unfold moveCard
  rw [if_neg h]
  cases fz with
  | decklist =>
      cases hrm : removeFromDecklist s.decklist cid with
      | none => rfl
      | some p =>
          cases tz with
          | decklist => exact absurd rfl h
          | nz z =>
              have hsum := removeFromDecklist_sum cid s.decklist p hrm
              have hlen := zoneLen_set s.zones z (s.zones z ++ [⟨p.2.id, nid⟩])
              show (p.1.map (fun c => c.count)).sum
                  + (nzAll.map (fun w =>
                      (((setZone s.zones z (s.zones z ++ [⟨p.2.id, nid⟩])) w).length : ℤ))).sum
                = (s.decklist.map (fun c => c.count)).sum
                  + (nzAll.map (fun w => ((s.zones w).length : ℤ))).sum
              simp only [List.length_append, List.length_cons, List.length_nil] at hlen
              omega
  | nz z =>
      show totalCards (moveFromZone s cid z tz) = totalCards s
      unfold moveFromZone
      cases hro : (removeOne (s.zones z) cid).2 with
      | none => rfl
      | some item =>
          have hlen1 := zoneLen_set s.zones z ((removeOne (s.zones z) cid).1)
          have hrlen := removeOne_snd_len (s.zones z) cid item hro
          cases tz with
          | decklist =>
              have hadd := addToDecklist_sum s.decklist item.id
              show ((addToDecklist s.decklist item.id).map (fun c => c.count)).sum
                  + (nzAll.map (fun w =>
                      (((setZone s.zones z ((removeOne (s.zones z) cid).1)) w).length : ℤ))).sum
                = (s.decklist.map (fun c => c.count)).sum
                  + (nzAll.map (fun w => ((s.zones w).length : ℤ))).sum
              omega
          | nz z₁ =>
              have hlen2 := zoneLen_set (setZone s.zones z ((removeOne (s.zones z) cid).1)) z₁
                ((setZone s.zones z ((removeOne (s.zones z) cid).1)) z₁ ++ [item])
              show (s.decklist.map (fun c => c.count)).sum
                  + (nzAll.map (fun w =>
                      (((setZone (setZone s.zones z ((removeOne (s.zones z) cid).1)) z₁
                          ((setZone s.zones z ((removeOne (s.zones z) cid).1)) z₁ ++ [item]))
                            w).length : ℤ))).sum
                = (s.decklist.map (fun c => c.count)).sum
                  + (nzAll.map (fun w => ((s.zones w).length : ℤ))).sum
              simp only [List.length_append, List.length_cons, List.length_nil] at hlen2
              omega

theorem moveCard_nodup (s : UIState) (cid nid : String) (fz tz : Zone) (h : fz ≠ tz)
    (hnd : (allInstIds s).Nodup) (hfresh : nid ∉ allInstIds s) :
    (allInstIds (moveCard s cid fz tz nid)).Nodup := by
  rw [nodup_msOf_iff] at hnd ⊢
  rw [mem_msOf_iff] at hfresh
  unfold moveCard
  rw [if_neg h]
  cases fz with
  | decklist =>
      cases hrm : removeFromDecklist s.decklist cid with
      | none => exact hnd
      | some p =>
          cases tz with
          | decklist => exact absurd rfl h
          | nz z =>
              show (msOf (setZone s.zones z (s.zones z ++ [⟨p.2.id, nid⟩]))).Nodup
              rw [msOf_append_new]
              exact Multiset.nodup_cons.mpr ⟨hfresh, hnd⟩
  | nz z =>
      show (msOf (moveFromZone s cid z tz).zones).Nodup
      unfold moveFromZone
      cases hro : (removeOne (s.zones z) cid).2 with
      | none => exact hnd
      | some item =>
          have hrem := msOf_set_remove s.zones z cid item hro
          cases tz with
          | decklist =>
              show (msOf (setZone s.zones z ((removeOne (s.zones z) cid).1))).Nodup
              apply Multiset.nodup_of_le _ hnd
              rw [Multiset.le_iff_exists_add]
              exact ⟨{item.instanceId}, hrem.symm⟩
          | nz z₁ =>
              show (msOf (setZone (setZone s.zones z ((removeOne (s.zones z) cid).1)) z₁
                  ((setZone s.zones z ((removeOne (s.zones z) cid).1)) z₁ ++ [item]))).Nodup
              rw [msOf_append_new]
              have hms : item.instanceId
                  ::ₘ msOf (setZone s.zones z ((removeOne (s.zones z) cid).1))
                    = msOf s.zones := by
                rw [← Multiset.singleton_add, add_comm]
                exact hrem
              rw [hms]
              exact hnd

theorem clearZone_totalCards (s : UIState) (z : NZ) :
    totalCards (clearZone s z) = totalCards s := by
  unfold clearZone
  by_cases he : (s.zones z).isEmpty
  · simp only [he, if_true]
  · simp only [he, if_false]
    have hfold := foldl_addBack_sum (s.zones z) s.decklist
    have hlen := zoneLen_set s.zones z []
    show (((s.zones z).foldl (fun dl item => addBackToDecklist dl item.id) s.decklist).map
            (fun c => c.count)).sum
        + (nzAll.map (fun w => (((setZone s.zones z []) w).length : ℤ))).sum
      = (s.decklist.map (fun c => c.count)).sum
        + (nzAll.map (fun w => ((s.zones w).length : ℤ))).sum
    simp only [List.length_nil] at hlen
    omega

theorem clearZone_nodup (s : UIState) (z : NZ) (hnd : (allInstIds s).Nodup) :
    (allInstIds (clearZone s z)).Nodup := by
  rw [nodup_msOf_iff] at hnd ⊢
  unfold clearZone
  by_cases he : (s.zones z).isEmpty
  · simp only [he, if_true]
    exact hnd
  · simp only [he, if_false]
    show (msOf (setZone s.zones z [])).Nodup
    apply Multiset.nodup_of_le _ hnd
    rw [Multiset.le_iff_exists_add]
    have h := msOf_set s.zones z []
    refine ⟨(((s.zones z).map (fun i => i.instanceId) : List String) : Multiset String), ?_⟩
    have h2 : msOf (setZone s.zones z [])
        + (((s.zones z).map (fun i => i.instanceId) : List String) : Multiset String)
          = msOf s.zones := by
      simpa using h
    exact h2.symm

/-- C3: the zone-mutating operations preserve the zone invariant — a
moveCard between distinct (typed, hence valid) zones and any clearZone
keep the total number of card instances (decklist counts plus the five
zone lengths) unchanged, and keep the zone instance ids duplicate-free
(each instance in exactly one zone slot), the move given a fresh minted
instance id. -/
theorem zone_ops_preserve_invariant :
    ∀ (s : UIState) (cid nid : String) (fz tz : Zone) (z : NZ),
      fz ≠ tz →
      (totalCards (moveCard s cid fz tz nid) = totalCards s
       ∧ ((allInstIds s).Nodup → nid ∉ allInstIds s →
           (allInstIds (moveCard s cid fz tz nid)).Nodup)
       ∧ totalCards (clearZone s z) = totalCards s
       ∧ ((allInstIds s).Nodup → (allInstIds (clearZone s z)).Nodup)) := by
  intro s cid nid fz tz z h
  exact ⟨moveCard_totalCards s cid nid fz tz h,
    fun hnd hfresh => moveCard_nodup s cid nid fz tz h hnd hfresh,
    clearZone_totalCards s z,
    fun hnd => clearZone_nodup s z hnd⟩

/-- Witness for C3: moving the lone hand instance to the battlefield
and clearing the hand, from a small concrete state. -/
theorem zone_ops_preserve_invariant_witness :
    totalCards (moveCard
        ⟨[⟨"a", 3⟩], fun w => match w with | NZ.hand => [⟨"a", "i1"⟩] | _ => [], ["i1"]⟩
        "i1" (.nz .hand) (.nz .battlefield) "i9")
      = totalCards
          ⟨[⟨"a", 3⟩], fun w => match w with | NZ.hand => [⟨"a", "i1"⟩] | _ => [], ["i1"]⟩
    ∧ (allInstIds (moveCard
        ⟨[⟨"a", 3⟩], fun w => match w with | NZ.hand => [⟨"a", "i1"⟩] | _ => [], ["i1"]⟩
        "i1" (.nz .hand) (.nz .battlefield) "i9")).Nodup
    ∧ totalCards (clearZone
        ⟨[⟨"a", 3⟩], fun w => match w with | NZ.hand => [⟨"a", "i1"⟩] | _ => [], ["i1"]⟩ .hand)
      = totalCards
          ⟨[⟨"a", 3⟩], fun w => match w with | NZ.hand => [⟨"a", "i1"⟩] | _ => [], ["i1"]⟩
    ∧ (allInstIds (clearZone
        ⟨[⟨"a", 3⟩], fun w => match w with | NZ.hand => [⟨"a", "i1"⟩] | _ => [], ["i1"]⟩
        .hand)).Nodup := by
  have h := zone_ops_preserve_invariant
    ⟨[⟨"a", 3⟩], fun w => match w with | NZ.hand => [⟨"a", "i1"⟩] | _ => [], ["i1"]⟩
    "i1" "i9" (.nz .hand) (.nz .battlefield) .hand (by decide)
  exact ⟨h.1, h.2.1 (by decide) (by decide), h.2.2.1, h.2.2.2 (by decide)⟩
